import Mathlib

/-!
Verification development for the prediction engine of the StockPredictorApp
repository (src/App.tsx).  The engine is the pure computational core:

* matrix helpers and Gauss-Jordan inversion (`transpose`, `matMul`,
  `invertMatrix`, lines 98-126 of src/App.tsx),
* ridge regression (`linearRidge`, lines 128-139),
* the fallback trend extrapolation (`predict`, lines 380-393),
* the full regression pipeline (`improvedPredict`, lines 141-272):
  feature building, walk-forward backtest, confidence aggregation and a
  5-step autoregressive rollout.

JavaScript numbers are modelled by exact rationals (`ℚ`).  The decimal
constants of the source (`1e-2`, `0.8`, ...) are read as the exact rationals
they denote.  `Math.sqrt` has no exact rational counterpart, so every
definition that reaches a standard deviation is parametrised by an abstract
square-root function `sq : ℚ → ℚ`; the one exact fact of `Math.sqrt` that the
source relies on, `sqrt 0 = 0`, is recorded definitionally in `stddev`.
Computations that produce a non-finite JavaScript number (`NaN` from the
length guards of `sma`/`ema`/`stddev`, or from a division by zero) are
modelled with `Option ℚ`, `none` standing for a non-finite value; the
finiteness layer at the end of the file tracks exactly where `none` can and
cannot arise.
-/

namespace StockPredictor

open Matrix

/-- Square matrices over `ℚ`, the shape handled by `invertMatrix`
(src/App.tsx line 108, always called with the 8×8 ridge matrix). -/
abbrev Mat (n : ℕ) := Matrix (Fin n) (Fin n) ℚ

/-- The singularity threshold of `invertMatrix` (line 118): `1e-12`. -/
def pivotEps : ℚ := 1 / 10 ^ 12

/-- Scan of lines 113-114: starting from `best`, walk the remaining rows and
keep the first row whose pivot-column entry is strictly larger in absolute
value (`Math.abs(A[r][i]) > Math.abs(A[maxRow][i])`). -/
def pivotAux (A : Mat n) (col : Fin n) : List (Fin n) → Fin n → Fin n
  | [], best => best
  | r :: rest, best => pivotAux A col rest (if |A best col| < |A r col| then r else best)

/-- The rows strictly below `i`, in increasing order — the range of the scan
`for (let r = i + 1; r < n; r++)` (line 114). -/
def rowsAfter (n : ℕ) (i : Fin n) : List (Fin n) :=
  (List.finRange n).filter (fun r => i < r)

/-- `maxRow` selection of lines 113-114. -/
def pivotRow (A : Mat n) (i : Fin n) : Fin n :=
  pivotAux A i (rowsAfter n i) i

/-- Row swap `[A[i], A[maxRow]] = [A[maxRow], A[i]]` (lines 115-116). -/
def swapRows (A : Mat n) (i j : Fin n) : Mat n :=
  fun r c => A (Equiv.swap i j r) c

/-- Scaling of the pivot row, `A[i][c] /= pivot` (line 119), as
multiplication by `s = pivot⁻¹`. -/
def scaleRow (A : Mat n) (i : Fin n) (s : ℚ) : Mat n :=
  fun r c => if r = i then s * A r c else A r c

/-- Elimination step of lines 120-123: for every row `r ≠ i` subtract
`f r` times the pivot row.  In the source the factor `A[r][i]` is read before
row `r` is modified and row `i` itself is left untouched, so the simultaneous
functional update is faithful. -/
def elimCol (A : Mat n) (i : Fin n) (f : Fin n → ℚ) : Mat n :=
  fun r c => if r = i then A r c else A r c - f r * A i c

/-- View of a JavaScript array-of-arrays of numbers as a matrix (row `r`,
column `c`, out-of-range entries defaulting to `0`, which never happens on
the shapes the engine builds). -/
def matOf (rows : List (List ℚ)) : Matrix (Fin m) (Fin k) ℚ :=
  fun r c => (rows.getD r.val []).getD c.val 0

/-- The concrete array-of-arrays holding a matrix, as the source's values are
held (`number[][]`). -/
def matList (M : Matrix (Fin m) (Fin k) ℚ) : List (List ℚ) :=
  List.ofFn (fun r : Fin m => List.ofFn (fun c : Fin k => M r c))

/-- One iteration of the outer loop of `invertMatrix` (lines 112-124),
applied to the pair (work array `A`, accumulated identity `I`): pick the
pivot row, swap it in (in both arrays), fail if the pivot is below `1e-12`
in absolute value, otherwise scale the pivot row and eliminate the pivot
column (in both arrays, with the factors read from the work array). -/
def gjStep (i : Fin n) (st : List (List ℚ) × List (List ℚ)) :
    Option (List (List ℚ) × List (List ℚ)) :=
  let A : Mat n := matOf st.1
  let B : Mat n := matOf st.2
  let j := pivotRow A i
  let A1 := swapRows A i j
  let B1 := swapRows B i j
  let p := A1 i i
  if |p| < pivotEps then none
  else
    let A2 := scaleRow A1 i p⁻¹
    let B2 := scaleRow B1 i p⁻¹
    let f : Fin n → ℚ := fun r => A2 r i
    some (matList (elimCol A2 i f), matList (elimCol B2 i f))

/-- The outer loop `for (let i = 0; i < n; i++)` of `invertMatrix`,
written with explicit fuel (the loop runs exactly `n` times, see
`invertMatrix`); `k` is the current column. -/
def gjLoop (n : ℕ) : ℕ → ℕ → List (List ℚ) × List (List ℚ) →
    Option (List (List ℚ) × List (List ℚ))
  | 0, _, st => some st
  | fuel + 1, k, st =>
    if h : k < n then (gjStep ⟨k, h⟩ st).bind (gjLoop n fuel (k + 1))
    else some st

/-- `invertMatrix` (lines 108-126): Gauss-Jordan elimination with partial
pivoting of `[A | I]`; `none` models the `return null` of line 118. -/
def invertMatrix (M : Mat n) : Option (Mat n) :=
  (gjLoop n n 0 (matList M, matList (1 : Mat n))).map (fun st => matOf st.2)

/-- The ridge normal matrix `XᵗX + λ·I` built in lines 130-133
(`matMul(transpose(X), X)` followed by `XtX[i][i] += lambda`). -/
def ridgeMatrix (X : Matrix (Fin m) (Fin k) ℚ) (lam : ℚ) : Mat k :=
  Xᵀ * X + lam • 1

/-- `linearRidge` (lines 128-139): `beta = (XᵗX + λI)⁻¹ Xᵗy`, or `none`
when the inversion signals singularity.  The design matrix is materialised
first, as the source holds it (`X: samples x features`). -/
def linearRidge (X : Matrix (Fin m) (Fin k) ℚ) (y : Fin m → ℚ) (lam : ℚ) :
    Option (Fin k → ℚ) :=
  let Xm : Matrix (Fin m) (Fin k) ℚ := matOf (matList X)
  (invertMatrix (ridgeMatrix Xm lam)).map (fun Inv => Inv *ᵥ (Xmᵀ *ᵥ y))

/-! ## Scalar helpers of the engine -/

/-- The percent change `((cur - prev) / prev) * 100` used throughout
(lines 151, 197, 212, 219).  Division by a zero `prev` gives a non-finite
number in JavaScript; over `ℚ` it yields `0`, and the finiteness layer below
(`returnsOfF`) tracks exactly where that can happen. -/
def pctChange (prev cur : ℚ) : ℚ := (cur - prev) / prev * 100

/-- The `returns` array of lines 150-151: `returns[j]` is the percent change
from `closes[j]` to `closes[j+1]` (the source writes the loop with `i = j+1`). -/
def returnsOf (closes : List ℚ) : List ℚ :=
  (List.range (closes.length - 1)).map
    (fun j => pctChange (closes.getD j 0) (closes.getD (j + 1) 0))

/-- `sma` (lines 75-79): `none` models the `NaN` returned when fewer than
`period` values are available; otherwise the mean of the last `period`
values (`arr.slice(arr.length - period)`). -/
def sma (arr : List ℚ) (period : ℕ) : Option ℚ :=
  if arr.length < period then none
  else some ((arr.drop (arr.length - period)).sum / (period : ℚ))

/-- `ema` (lines 81-89): `none` models the `NaN` returned on an empty array;
otherwise the recurrence `prev = arr[i]*k + prev*(1-k)` seeded with `arr[0]`
and folded over the whole array, with `k = 2/(period+1)`. -/
def ema (arr : List ℚ) (period : ℕ) : Option ℚ :=
  match arr with
  | [] => none
  | a :: rest =>
    let k : ℚ := 2 / ((period : ℚ) + 1)
    some (rest.foldl (fun prev x => x * k + prev * (1 - k)) a)

/-- Population variance, the `variance` local of lines 93-94. -/
def variance (arr : List ℚ) : ℚ :=
  let mean := arr.sum / (arr.length : ℚ)
  (arr.map (fun b => (b - mean) * (b - mean))).sum / (arr.length : ℚ)

/-- `stddev` (lines 91-96): `none` models the `NaN` returned on an empty
array, otherwise `Math.sqrt(variance)`.  The square root is kept abstract
(`sq`), except that `Math.sqrt 0 = 0` holds exactly and is recorded here. -/
def stddev (sq : ℚ → ℚ) (arr : List ℚ) : Option ℚ :=
  if arr = [] then none
  else some (if variance arr = 0 then 0 else sq (variance arr))

/-- Models `x ?? 0` applied to one of the `Option`-valued helpers.  In the
source `??` only catches `null`/`undefined` and would pass a `NaN` through;
here a `none` is mapped to `0`.  The finiteness theorems below show that on
the engine's reachable windows the helpers never return `none`, where the two
readings agree. -/
def qq (o : Option ℚ) : ℚ := o.getD 0

/-- Models `x || 0` applied to one of the `Option`-valued helpers: a
non-finite (falsy `NaN`) value becomes `0`, a zero value stays `0`, any other
value passes through — which is exactly `Option.getD · 0` over this model. -/
def orz (o : Option ℚ) : ℚ := o.getD 0

/-! ## Full-sample training set (lines 153-171)

The loop `for (let i = 20; i < closes.length - 1; i++)` pushes one feature
row and one target per cutoff `i`; with `n = closes.length ≥ 30` that is
`n - 21` rows, row `j` having cutoff `i = 20 + j`. -/

/-- One feature row of lines 156-168, at cutoff `i`:
`[1, returns[i-1] ?? 0, sma5 ?? 0, sma20 ?? 0, ema12 ?? 0, ema26 ?? 0,
stddev(returns.slice(max(0,i-19), i)) ?? 0, (last - (sma20 || 0)) || 0]`
over the window `closes.slice(0, i+1)`.  `ℕ`-subtraction truncates at zero,
which matches `Math.max(0, i-19)`; the trailing `|| 0` of the momentum
component is the identity on a finite value and is dropped. -/
def featureRow (sq : ℚ → ℚ) (closes : List ℚ) (i : ℕ) : Fin 8 → ℚ :=
  let wc := closes.take (i + 1)
  let rets := returnsOf closes
  ![1,
    rets.getD (i - 1) 0,
    qq (sma wc 5),
    qq (sma wc 20),
    qq (ema wc 12),
    qq (ema wc 26),
    qq (stddev sq ((rets.drop (i - 19)).take (i - (i - 19)))),
    wc.getD (wc.length - 1) 0 - orz (sma wc 20)]

/-- The design matrix of the full-sample fit: row `j` is the feature row at
cutoff `20 + j` (lines 156-169). -/
def trainX (sq : ℚ → ℚ) (closes : List ℚ) :
    Matrix (Fin (closes.length - 21)) (Fin 8) ℚ :=
  fun j => featureRow sq closes (20 + j.val)

/-- The target vector: `targets.push(returns[i])`, the next day's return at
cutoff `i = 20 + j` (line 170; the index is always in range). -/
def trainY (closes : List ℚ) : Fin (closes.length - 21) → ℚ :=
  fun j => (returnsOf closes).getD (20 + j.val) 0

/-- The full-sample ridge fit `linearRidge(features, targets, 1e-2)` of
line 173. -/
def fitBeta (sq : ℚ → ℚ) (closes : List ℚ) : Option (Fin 8 → ℚ) :=
  linearRidge (trainX sq closes) (trainY closes) (1 / 100)

/-- In-sample `R²` of lines 180-185: `1 - ssRes/(ssTot || 1)` where the
predictions are `dot(f, beta)` row by row (`ssTot || 1` replaces a zero
`ssTot` by `1`). -/
def rsq (sq : ℚ → ℚ) (closes : List ℚ) (beta : Fin 8 → ℚ) : ℚ :=
  let preds : Fin (closes.length - 21) → ℚ := fun j => trainX sq closes j ⬝ᵥ beta
  let len : ℚ := ((closes.length - 21 : ℕ) : ℚ)
  let meanT := (∑ j, trainY closes j) / len
  let ssRes := ∑ j, (trainY closes j - preds j) * (trainY closes j - preds j)
  let ssTot := ∑ j, (trainY closes j - meanT) * (trainY closes j - meanT)
  1 - ssRes / (if ssTot = 0 then 1 else ssTot)

/-! ## Walk-forward backtest (lines 187-243) -/

/-- The sampled split indices `for (let split = 30; split < n - 1; split += 3)`
(line 191): `30, 33, 36, ...` strictly below `n - 1`. -/
def splitIndices (n : ℕ) : List ℕ :=
  (List.range ((n - 1 - 30 + 2) / 3)).map (fun k => 30 + 3 * k)

/-- One backtest training feature row (lines 196-210), at cutoff `i`.  It
differs from `featureRow` in three ways, all faithful to the source: the last
return is recomputed directly from the closes (line 197), the helpers are
coalesced with `|| 0` instead of `?? 0` (lines 201-209), and the volatility
slot maps its window to constant `0` before taking the standard deviation
(lines 205-208), so it contributes `stddev` of an all-zero list. -/
def btFeatureRow (sq : ℚ → ℚ) (closes : List ℚ) (i : ℕ) : Fin 8 → ℚ :=
  let wc := closes.take (i + 1)
  let r := pctChange (closes.getD (i - 1) 0) (closes.getD i 0)
  ![1,
    r,
    orz (sma wc 5),
    orz (sma wc 20),
    orz (ema wc 12),
    orz (ema wc 26),
    orz (stddev sq (((closes.drop (i - 19)).take (i - (i - 19))).map (fun _ => 0))),
    wc.getD (wc.length - 1) 0 - orz (sma wc 20)]

/-- The backtest design matrix at a split: rows `i = 20 .. split-1`
(line 195), row `j` at cutoff `20 + j`. -/
def btTrainX (sq : ℚ → ℚ) (closes : List ℚ) (split : ℕ) :
    Matrix (Fin (split - 20)) (Fin 8) ℚ :=
  fun j => btFeatureRow sq closes (20 + j.val)

/-- The backtest targets `((closes[i+1] - closes[i]) / closes[i]) * 100`
(line 212), at cutoff `i = 20 + j`. -/
def btTrainY (closes : List ℚ) (split : ℕ) : Fin (split - 20) → ℚ :=
  fun j => pctChange (closes.getD (20 + j.val) 0) (closes.getD (20 + j.val + 1) 0)

/-- The single evaluation feature vector at a split (lines 218-229), built on
the window `closes.slice(0, split+1)`.  Its volatility slot is the standard
deviation of the *raw closes* `closes.slice(max(0, split-19), split)`
(line 227), unlike both the training rows above and the live rollout below.
The `lastRet || 0` of line 222 is the identity on a finite value. -/
def btSplitFeature (sq : ℚ → ℚ) (closes : List ℚ) (split : ℕ) : Fin 8 → ℚ :=
  let wc := closes.take (split + 1)
  let lastRet := pctChange (wc.getD (wc.length - 2) 0) (wc.getD (wc.length - 1) 0)
  ![1,
    lastRet,
    orz (sma wc 5),
    orz (sma wc 20),
    orz (ema wc 12),
    orz (ema wc 26),
    orz (stddev sq ((closes.drop (split - 19)).take (split - (split - 19)))),
    wc.getD (wc.length - 1) 0 - orz (sma wc 20)]

/-- One split of the walk-forward loop (lines 191-236): skip (`none`) when
fewer than 5 training rows exist (line 214, never the case for
`split ≥ 30`), when the refit is singular (line 216), or when the actual
next close fails the `actualPrice && actualPrice > 0` guard (line 233);
otherwise the recorded error `|predicted - actual| / actual` (line 234). -/
def errorAtSplit (sq : ℚ → ℚ) (closes : List ℚ) (split : ℕ) : Option ℚ :=
  if split - 20 < 5 then none
  else
    match linearRidge (btTrainX sq closes split) (btTrainY closes split) (1 / 100) with
    | none => none
    | some betaT =>
      let predRet := btSplitFeature sq closes split ⬝ᵥ betaT
      let predictedPrice := closes.getD split 0 * (1 + predRet / 100)
      let actualPrice := closes.getD (split + 1) 0
      if 0 < actualPrice then some |(predictedPrice - actualPrice) / actualPrice|
      else none

/-- The `errors` array accumulated over all sampled splits (lines 189-236). -/
def btErrors (sq : ℚ → ℚ) (closes : List ℚ) : List ℚ :=
  (splitIndices closes.length).filterMap (errorAtSplit sq closes)

/-- `backtestConf` of lines 238-243: `0` when no split produced an error,
otherwise `max(0, 1 - min(1, mape / 0.1))` with `mape` the mean error. -/
def btConf (sq : ℚ → ℚ) (closes : List ℚ) : ℚ :=
  let errors := btErrors sq closes
  if errors.length = 0 then 0
  else max 0 (1 - min 1 (errors.sum / (errors.length : ℚ) / (1 / 10)))

/-! ## Autoregressive rollout (lines 247-271) -/

/-- The per-step feature vector of lines 252-261, built from the rolling
`lastCloses`/`lastReturns` buffers: the volatility slot is the standard
deviation of the trailing (at most 20) *percent returns*
(`lastReturns.slice(Math.max(0, lastReturns.length - 20))`, line 259;
`ℕ`-subtraction truncates, matching the `Math.max`). -/
def liveFeature (sq : ℚ → ℚ) (cs rs : List ℚ) : Fin 8 → ℚ :=
  ![1,
    rs.getD (rs.length - 1) 0,
    qq (sma cs 5),
    qq (sma cs 20),
    qq (ema cs 12),
    qq (ema cs 26),
    qq (stddev sq (rs.drop (rs.length - 20))),
    cs.getD (cs.length - 1) 0 - orz (sma cs 20)]

/-- One rollout iteration (lines 252-268): predict the next percent return
as `dot(feature, beta)`, convert it to the next price, and append both to the
rolling buffers; the emitted price is returned alongside the new state. -/
def rolloutStep (sq : ℚ → ℚ) (beta : Fin 8 → ℚ) (st : List ℚ × List ℚ) :
    (List ℚ × List ℚ) × ℚ :=
  let predReturn := liveFeature sq st.1 st.2 ⬝ᵥ beta
  let nextPrice := st.1.getD (st.1.length - 1) 0 * (1 + predReturn / 100)
  ((st.1 ++ [nextPrice], st.2 ++ [predReturn]), nextPrice)

/-- The rolling state before step `k` of the rollout: the buffers start as
copies of `closes`/`returns` (lines 248-249) and grow by one entry per step. -/
def rolloutState (sq : ℚ → ℚ) (beta : Fin 8 → ℚ) (closes returns : List ℚ) :
    ℕ → List ℚ × List ℚ
  | 0 => (closes, returns)
  | k + 1 => (rolloutStep sq beta (rolloutState sq beta closes returns k)).1

/-- The `projection` array of the `for (let step = 0; step < 5; step++)` loop
(lines 250-269): the price emitted at each of the five steps. -/
def rollout (sq : ℚ → ℚ) (beta : Fin 8 → ℚ) (closes returns : List ℚ) : List ℚ :=
  (List.range 5).map (fun k => (rolloutStep sq beta (rolloutState sq beta closes returns k)).2)

/-! ## Fallback predictor and orchestrator -/

/-- The result record of `predict` (line 381/392). -/
structure PredictOut where
  nextPrice : ℚ
  projectionLine : List ℚ
  deriving DecidableEq, Repr

/-- The compounding loop of lines 388-391: `projection = [last]` followed by
five pushes of `projection[i] * (1 + avg/100)`. -/
def predictAux (last avg : ℚ) : ℕ → List ℚ
  | 0 => [last]
  | k + 1 =>
    let p := predictAux last avg k
    p ++ [p.getD k 0 * (1 + avg / 100)]

/-- `predict` (lines 380-393), the fallback trend extrapolation: histories
with fewer than 2 values return the last value (or 0) with an empty
projection; otherwise the mean percent change is compounded five times, the
head of the projection buffer being dropped (`projection.slice(1)`). -/
def predict (values : List ℚ) : PredictOut :=
  if values.length < 2 then ⟨values.getD (values.length - 1) 0, []⟩
  else
    let last := values.getD (values.length - 1) 0
    let pct := returnsOf values
    let avg := if pct.length = 0 then 0 else pct.sum / (pct.length : ℚ)
    let projection := predictAux last avg 5
    ⟨projection.getD (projection.length - 1) 0, projection.drop 1⟩

/-- The result record of `improvedPredict` (lines 146, 177, 271). -/
structure ForecastOut where
  nextPrice : ℚ
  projectionLine : List ℚ
  confidence : ℚ
  deriving DecidableEq, Repr

/-- A candle as consumed by the engine.  Only the close is ever read by
`improvedPredict`/`predict`; the date and volume of the source's `Candle`
record never influence the result and are omitted. -/
structure Candle where
  close : ℚ
  deriving DecidableEq, Repr

/-- The regression path of `improvedPredict` (lines 173-271): a singular
full-sample fit falls back to `predict` with confidence `0.1`
(lines 174-178); otherwise the confidence combines the backtest and the
in-sample `R²` (line 245) and the projection is the 5-step rollout, the
reported `nextPrice` being its last element (line 271). -/
def regressionPredict (sq : ℚ → ℚ) (closes : List ℚ) : ForecastOut :=
  match fitBeta sq closes with
  | none =>
    let s := predict closes
    ⟨s.nextPrice, s.projectionLine, 1 / 10⟩
  | some beta =>
    let finalConf :=
      max 0 (min 1 (4 / 5 * btConf sq closes + 1 / 5 * max 0 (min 1 (rsq sq closes beta))))
    let projection := rollout sq beta closes (returnsOf closes)
    ⟨projection.getD (projection.length - 1) 0, projection, finalConf⟩

/-- `improvedPredict` (lines 141-272), the orchestrator: histories of fewer
than 30 candles fall back to `predict` with confidence `0.2` (lines 142-147),
everything else takes the regression path. -/
def improvedPredict (sq : ℚ → ℚ) (candles : List Candle) : ForecastOut :=
  if candles.length < 30 then
    let simple := predict (candles.map Candle.close)
    ⟨simple.nextPrice, simple.projectionLine, 1 / 5⟩
  else regressionPredict sq (candles.map Candle.close)

/-! ## Finiteness layer

`Option ℚ`-valued recomputation of the feature pipeline in which `none`
stands for a non-finite JavaScript number.  The helpers `sma`/`ema`/`stddev`
are already `Option`-valued; what remains is the one arithmetic source of
non-finite values, the division in the percent-change computation, and the
assembly of a feature row in which `x ?? 0` lets a non-finite number *pass
through* (it only catches `undefined`).  Comparing this layer with the exact
layer above (theorem `C7`) shows that on the engine's reachable windows no
non-finite value ever arises, which justifies the `Option.getD`-reading of
`?? 0` used by `qq`. -/

/-- The `returns` array with the division tracked: a zero previous close
produces a non-finite value (`none`). -/
def returnsOfF (closes : List ℚ) : List (Option ℚ) :=
  (List.range (closes.length - 1)).map
    (fun j =>
      if closes.getD j 0 = 0 then none
      else some (pctChange (closes.getD j 0) (closes.getD (j + 1) 0)))

/-- A list of JavaScript numbers is finite iff all its entries are. -/
def seqList : List (Option ℚ) → Option (List ℚ)
  | [] => some []
  | none :: _ => none
  | some x :: rest => (seqList rest).map (x :: ·)

/-- `stddev` over a list of possibly non-finite numbers: any non-finite
entry poisons the mean and the variance. -/
def stddevF (sq : ℚ → ℚ) (l : List (Option ℚ)) : Option ℚ :=
  (seqList l).bind (stddev sq)

/-- The feature row of lines 156-168 with non-finiteness tracked: the
`?? 0` sites keep a `none` (a `NaN` is not `null`), and the out-of-range
read `returns[i-1]` (which `?? 0` would catch) defaults to `some 0`.  The
momentum slot is always finite for finite closes because its inner sma is
coalesced with `|| 0`. -/
def featureRowOpt (sq : ℚ → ℚ) (closes : List ℚ) (i : ℕ) : Fin 8 → Option ℚ :=
  let wc := closes.take (i + 1)
  let retsF := returnsOfF closes
  ![some 1,
    retsF.getD (i - 1) (some 0),
    sma wc 5,
    sma wc 20,
    ema wc 12,
    ema wc 26,
    stddevF sq ((retsF.drop (i - 19)).take (i - (i - 19))),
    some (wc.getD (wc.length - 1) 0 - orz (sma wc 20))]

/-- The rollout feature of lines 252-261 with non-finiteness tracked; the
rolling buffers already hold exact rationals, so only the window guards of
the helpers can produce a non-finite value here. -/
def liveFeatureOpt (sq : ℚ → ℚ) (cs rs : List ℚ) : Fin 8 → Option ℚ :=
  ![some 1,
    some (rs.getD (rs.length - 1) 0),
    sma cs 5,
    sma cs 20,
    ema cs 12,
    ema cs 26,
    stddev sq (rs.drop (rs.length - 20)),
    some (cs.getD (cs.length - 1) 0 - orz (sma cs 20))]

/-! ## Specification-side definitions

Definitions written from the wording of the specification (not from the
source), used to state the refinement-style claims that compare the code's
confidence aggregation with the formulas the specification gives. -/

/-- `clamp(x, 0, 1)` as the specification writes it. -/
def clampQ (x : ℚ) : ℚ := max 0 (min 1 x)

/-- `MAPE = mean(errors)` over the recorded per-split errors. -/
def specMape (sq : ℚ → ℚ) (closes : List ℚ) : ℚ :=
  (btErrors sq closes).sum / ((btErrors sq closes).length : ℚ)

/-- The specification's backtest confidence:
`clamp(1 - MAPE/0.10, 0, 1)`, and `0` when no split produced an error. -/
def specBacktestConf (sq : ℚ → ℚ) (closes : List ℚ) : ℚ :=
  if btErrors sq closes = [] then 0
  else clampQ (1 - specMape sq closes / (1 / 10))

/-! ## Concrete inputs used by the witnesses -/

/-- Thirty candles with constant close 1: a regression-path history whose
ridge fit is nonsingular. -/
def candlesFlat : List Candle := List.replicate 30 ⟨1⟩

/-- Twenty-nine constant closes followed by one jump: a history whose
trailing returns have nonzero variance. -/
def closesJump : List ℚ := List.replicate 29 1 ++ [2]

/-- Thirty-two alternating closes: raw-price windows and percent-return
windows with different (nonzero) variances. -/
def closesAlt : List ℚ :=
  (List.range 32).map (fun j => if j % 2 = 0 then 1 else 2)

/-- A five-candle history for the short-history fallback. -/
def candlesShort : List Candle := [⟨10⟩, ⟨11⟩, ⟨12⟩, ⟨11⟩, ⟨13⟩]

/-- A concrete stand-in for `Math.sqrt` mapping everything to `0` (the
engine's claims hold for every square-root function; witnesses fix one). -/
def sqZero : ℚ → ℚ := fun _ => 0

/-- The identity as a concrete stand-in for `Math.sqrt`; like `Math.sqrt`
it is nonzero on positive arguments. -/
def sqId : ℚ → ℚ := fun x => x

/-! # Theorems

## Correctness of the Gauss-Jordan inversion -/

theorem matOf_matList (M : Matrix (Fin m) (Fin k) ℚ) : matOf (matList M) = M := by
  funext r c
  simp [matOf, matList, List.getD_eq_getElem?_getD, List.getElem?_ofFn, r.isLt, c.isLt]

theorem pivotAux_ge (A : Mat n) (col : Fin n) (l : List (Fin n)) (best i : Fin n)
    (hb : i ≤ best) (hl : ∀ r ∈ l, i ≤ r) : i ≤ pivotAux A col l best := by
  induction l generalizing best with
  | nil => exact hb
  | cons r rest ih =>
    simp only [pivotAux]
    refine ih _ ?_ (fun x hx => hl x (List.mem_cons_of_mem r hx))
    split
    · exact hl r (List.mem_cons_self r rest)
    · exact hb

theorem pivotRow_ge (A : Mat n) (i : Fin n) : i ≤ pivotRow A i := by
  refine pivotAux_ge A i _ i i le_rfl (fun r hr => ?_)
  simp only [rowsAfter, List.mem_filter, decide_eq_true_eq] at hr
  exact le_of_lt hr.2

/-- Row swaps act on the rows of a product. -/
theorem swapRows_mul (E M : Mat n) (i j : Fin n) :
    swapRows (E * M) i j = swapRows E i j * M := by
  funext r c
  simp [swapRows, Matrix.mul_apply]

/-- Row scaling acts on the rows of a product. -/
theorem scaleRow_mul (E M : Mat n) (i : Fin n) (s : ℚ) :
    scaleRow (E * M) i s = scaleRow E i s * M := by
  funext r c
  by_cases h : r = i <;> simp [scaleRow, Matrix.mul_apply, h, Finset.mul_sum, mul_assoc]

/-- Elimination acts on the rows of a product. -/
theorem elimCol_mul (E M : Mat n) (i : Fin n) (f : Fin n → ℚ) :
    elimCol (E * M) i f = elimCol E i f * M := by
  funext r c
  by_cases h : r = i <;>
    simp [elimCol, Matrix.mul_apply, h, Finset.sum_sub_distrib, sub_mul, Finset.mul_sum, mul_assoc]

/-- The loop invariant of the Gauss-Jordan elimination after `k` processed
columns: the accumulated right-hand array is a row-operation image of the
identity tracking the work array (`matOf st.2 * M = matOf st.1`), and the
first `k` columns of the work array have been reduced to identity columns. -/
def GjInv (M : Mat n) (k : ℕ) (st : List (List ℚ) × List (List ℚ)) : Prop :=
  matOf st.2 * M = matOf st.1 ∧
    ∀ r c : Fin n, c.val < k → matOf st.1 r c = (1 : Mat n) r c

theorem gjStep_inv {M : Mat n} {k : ℕ} (hk : k < n)
    {st st' : List (List ℚ) × List (List ℚ)}
    (hinv : GjInv M k st) (hstep : gjStep ⟨k, hk⟩ st = some st') :
    GjInv M (k + 1) st' := by
  obtain ⟨hinv1, hinv2⟩ := hinv
  set i : Fin n := ⟨k, hk⟩ with hi
  set A : Mat n := matOf st.1 with hA
  set B : Mat n := matOf st.2 with hB
  set j : Fin n := pivotRow A i with hj
  set A1 : Mat n := swapRows A i j with hA1
  set B1 : Mat n := swapRows B i j with hB1
  set p : ℚ := A1 i i with hp
  have hik : (i : Fin n).val = k := rfl
  have hij : i ≤ j := pivotRow_ge A i
  simp only [gjStep, ← hi, ← hA, ← hB, ← hj, ← hA1, ← hB1, ← hp] at hstep
  by_cases hps : |p| < pivotEps
  · simp [hps] at hstep
  · rw [if_neg hps] at hstep
    have hp0 : p ≠ 0 := by
      intro h0
      exact hps (by rw [h0]; norm_num [pivotEps])
    set A2 : Mat n := scaleRow A1 i p⁻¹ with hA2
    set B2 : Mat n := scaleRow B1 i p⁻¹ with hB2
    set f : Fin n → ℚ := fun r => A2 r i with hf
    obtain rfl : st' = (matList (elimCol A2 i f), matList (elimCol B2 i f)) :=
      (Option.some_inj.mp hstep).symm
    -- entries of the identity in an already-finished column vanish at or
    -- below the pivot row
    have hone0 : ∀ x c : Fin n, c.val < k → i ≤ x → ((1 : Mat n) x c) = 0 := by
      intro x c hc hx
      have hxc : x ≠ c := by
        intro h
        subst h
        have : (k : ℕ) ≤ x.val := hx
        omega
      simp [Matrix.one_apply, hxc]
    -- the first k columns of A1 are still identity columns
    have hA1c : ∀ r c : Fin n, c.val < k → A1 r c = (1 : Mat n) r c := by
      intro r c hc
      show swapRows A i j r c = _
      rw [swapRows]
      by_cases hri : r = i
      · rw [hri, Equiv.swap_apply_left, hinv2 j c hc, hone0 j c hc hij,
          hone0 i c hc le_rfl]
      · by_cases hrj : r = j
        · rw [hrj, Equiv.swap_apply_right, hinv2 i c hc, hone0 i c hc le_rfl,
            hone0 j c hc hij]
        · rw [Equiv.swap_apply_of_ne_of_ne hri hrj, hinv2 r c hc]
    -- the first k columns of A2 are still identity columns
    have hA2c : ∀ r c : Fin n, c.val < k → A2 r c = (1 : Mat n) r c := by
      intro r c hc
      show scaleRow A1 i p⁻¹ r c = _
      rw [scaleRow]
      by_cases hri : r = i
      · rw [if_pos hri, hri, hA1c i c hc, hone0 i c hc le_rfl, mul_zero]
      · rw [if_neg hri, hA1c r c hc]
    -- the pivot entry has been scaled to 1
    have hA2ii : A2 i i = 1 := by
      show scaleRow A1 i p⁻¹ i i = 1
      rw [scaleRow, if_pos rfl, ← hp, inv_mul_cancel₀ hp0]
    refine ⟨?_, ?_⟩
    · -- matOf st'.2 * M = matOf st'.1
      show matOf (matList (elimCol B2 i f)) * M = matOf (matList (elimCol A2 i f))
      rw [matOf_matList, matOf_matList, hB2, hB1, ← elimCol_mul, ← scaleRow_mul,
        ← swapRows_mul, hinv1, ← hA1, ← hA2]
    · -- the first k+1 columns of the new work array are identity columns
      intro r c hc
      show matOf (matList (elimCol A2 i f)) r c = _
      rw [matOf_matList]
      rcases Nat.lt_succ_iff_lt_or_eq.mp hc with hck | hck
      · by_cases hri : r = i
        · show elimCol A2 i f r c = _
          rw [elimCol, if_pos hri, hri, hA2c i c hck]
        · have hic : A2 i c = 0 := by
            rw [hA2c i c hck, hone0 i c hck le_rfl]
          show elimCol A2 i f r c = _
          rw [elimCol, if_neg hri, hA2c r c hck, hic, mul_zero, sub_zero]
      · have hci : c = i := by
          apply Fin.ext
          omega
        subst hci
        by_cases hri : r = i
        · show elimCol A2 i f r i = _
          rw [elimCol, if_pos hri, hri, hA2ii, Matrix.one_apply_eq]
        · show elimCol A2 i f r i = _
          rw [elimCol, if_neg hri, hf, hA2ii, mul_one, sub_self,
            Matrix.one_apply_ne hri]

theorem gjLoop_inv {M : Mat n} :
    ∀ (fuel k : ℕ) (st st' : List (List ℚ) × List (List ℚ)),
      n ≤ fuel + k → GjInv M k st → gjLoop n fuel k st = some st' → GjInv M n st' := by
  intro fuel
  induction fuel with
  | zero =>
    intro k st st' hle hinv h
    obtain rfl : st = st' := by simpa [gjLoop] using h
    exact ⟨hinv.1, fun r c hc => hinv.2 r c (lt_of_lt_of_le hc (by omega))⟩
  | succ fuel ih =>
    intro k st st' hle hinv h
    simp only [gjLoop] at h
    by_cases hk : k < n
    · rw [dif_pos hk] at h
      obtain ⟨st1, hst1, hrest⟩ := Option.bind_eq_some.mp h
      exact ih (k + 1) st1 st' (by omega) (gjStep_inv hk hinv hst1) hrest
    · rw [dif_neg hk] at h
      obtain rfl : st = st' := by simpa using h
      exact ⟨hinv.1, fun r c hc => hinv.2 r c (lt_of_lt_of_le hc (by omega))⟩

/-- Soundness of `invertMatrix`: a returned matrix is a genuine two-sided
inverse of the input. -/
theorem invertMatrix_sound {M B : Mat n} (h : invertMatrix M = some B) :
    B * M = 1 ∧ M * B = 1 := by
  simp only [invertMatrix, Option.map_eq_some'] at h
  obtain ⟨st, hst, hB⟩ := h
  have hinit : GjInv M 0 (matList M, matList (1 : Mat n)) := by
    constructor
    · simp [matOf_matList]
    · intro r c hc
      exact absurd hc (Nat.not_lt_zero _)
  have hfin := gjLoop_inv n 0 _ st (by omega) hinit hst
  have hone : matOf st.1 = (1 : Mat n) := by
    funext r c
    exact hfin.2 r c c.isLt
  have hleft : B * M = 1 := by
    rw [← hB]
    rw [hfin.1, hone]
  exact ⟨hleft, Matrix.mul_eq_one_comm.mp hleft⟩

/-- Soundness of `linearRidge`: a returned coefficient vector satisfies the
ridge normal equations exactly. -/
theorem linearRidge_sound {X : Matrix (Fin m) (Fin k) ℚ} {y : Fin m → ℚ} {lam : ℚ}
    {beta : Fin k → ℚ} (h : linearRidge X y lam = some beta) :
    ridgeMatrix X lam *ᵥ beta = Xᵀ *ᵥ y := by
  simp only [linearRidge, matOf_matList, Option.map_eq_some'] at h
  obtain ⟨Inv, hInv, hbeta⟩ := h
  have h2 := (invertMatrix_sound hInv).2
  rw [← hbeta, Matrix.mulVec_mulVec, h2, Matrix.one_mulVec]

/-! ## Branch structure of the orchestrator -/

/-- Histories shorter than 30 candles route to `predict` with confidence
`0.2` (lines 142-147). -/
theorem improvedPredict_short (sq : ℚ → ℚ) (candles : List Candle)
    (h : candles.length < 30) :
    improvedPredict sq candles =
      ⟨(predict (candles.map Candle.close)).nextPrice,
        (predict (candles.map Candle.close)).projectionLine, 1 / 5⟩ := by
  show (if candles.length < 30 then _ else _) = _
  rw [if_pos h]

/-- Histories of at least 30 candles route to the regression path. -/
theorem improvedPredict_long (sq : ℚ → ℚ) (candles : List Candle)
    (h : ¬ candles.length < 30) :
    improvedPredict sq candles = regressionPredict sq (candles.map Candle.close) := by
  show (if candles.length < 30 then _ else _) = _
  rw [if_neg h]

/-- A singular full-sample fit routes to `predict` with confidence `0.1`
(lines 174-178). -/
theorem regressionPredict_none (sq : ℚ → ℚ) (closes : List ℚ)
    (hfit : fitBeta sq closes = none) :
    regressionPredict sq closes =
      ⟨(predict closes).nextPrice, (predict closes).projectionLine, 1 / 10⟩ := by
  unfold regressionPredict
  rw [hfit]

/-- A successful full-sample fit produces the rollout projection together
with the aggregated confidence (lines 180-271). -/
theorem regressionPredict_some (sq : ℚ → ℚ) (closes : List ℚ) (beta : Fin 8 → ℚ)
    (hfit : fitBeta sq closes = some beta) :
    regressionPredict sq closes =
      ⟨(rollout sq beta closes (returnsOf closes)).getD
          ((rollout sq beta closes (returnsOf closes)).length - 1) 0,
        rollout sq beta closes (returnsOf closes),
        max 0 (min 1 (4 / 5 * btConf sq closes +
          1 / 5 * max 0 (min 1 (rsq sq closes beta))))⟩ := by
  unfold regressionPredict
  rw [hfit]

/-- The fallback on fewer than two values returns the last value (or `0`)
and an empty projection (line 381). -/
theorem predict_short (values : List ℚ) (h : values.length < 2) :
    predict values = ⟨values.getD (values.length - 1) 0, []⟩ := by
  unfold predict
  rw [if_pos h]

/-! ## C1 and C10: degenerate histories -/

/-- C1, counterexample: the claim says a 1-candle history must fail as
InvalidInput with no forecast returned; the code instead returns a complete
fallback `ForecastResult` (nextPrice 100, empty projection, confidence 0.2)
for the 1-candle history with close 100. -/
theorem C1_invalid_input_counterexample :
    improvedPredict sqZero [⟨100⟩] = ⟨100, [], 1 / 5⟩ := by
  with_unfolding_all decide

/-- C1, amended: for every candle history with fewer than 2 entries the
orchestrator does not fail: it returns a fallback `ForecastResult` whose
`nextPrice` is the last close (or `0` for an empty history), whose
`projectionLine` is empty, and whose confidence is `0.2`; no `InvalidInput`
error exists. -/
theorem C1_short_history_fallback (sq : ℚ → ℚ) (candles : List Candle)
    (h : candles.length < 2) :
    improvedPredict sq candles =
      ⟨(candles.map Candle.close).getD (candles.length - 1) 0, [], 1 / 5⟩ := by
  rw [improvedPredict_short sq candles (by omega),
    predict_short _ (by simpa using h)]
  simp

/-- Witness for `C1_short_history_fallback` at the 1-candle history. -/
theorem C1_short_history_fallback_witness :
    ([(⟨100⟩ : Candle)].length < 2) ∧
      improvedPredict sqZero [⟨100⟩] =
        ⟨([(⟨100⟩ : Candle)].map Candle.close).getD ([(⟨100⟩ : Candle)].length - 1) 0,
          [], 1 / 5⟩ :=
  ⟨by decide, C1_short_history_fallback sqZero [⟨100⟩] (by decide)⟩

/-- C10: the engine is total on degenerate histories: an empty history
yields `{nextPrice 0, projectionLine [], confidence 0.2}` and a 1-candle
history yields `{nextPrice c, projectionLine [], confidence 0.2}` — a
fallback result with an empty projection rather than a rejection. -/
theorem C10_degenerate_inputs_total (sq : ℚ → ℚ) :
    improvedPredict sq [] = ⟨0, [], 1 / 5⟩ ∧
      ∀ c : ℚ, improvedPredict sq [⟨c⟩] = ⟨c, [], 1 / 5⟩ := by
  constructor
  · rw [improvedPredict_short sq [] (by norm_num), predict_short _ (by norm_num)]
    simp
  · intro c
    rw [improvedPredict_short sq [⟨c⟩] (by norm_num), predict_short _ (by norm_num)]
    simp

/-! ## C4: fallback confidences -/

/-- C4: histories of 2-29 candles produce the `FallbackPredictor` result
with confidence exactly 0.2 (regression and backtest bypassed), and
histories of at least 30 candles whose full-sample ridge fit signals
Singular produce the `FallbackPredictor` result with confidence exactly 0.1;
in both cases a complete result (no error) is returned. -/
theorem C4_fallback_routes :
    (∀ (sq : ℚ → ℚ) (candles : List Candle),
      2 ≤ candles.length → candles.length ≤ 29 →
      improvedPredict sq candles =
        ⟨(predict (candles.map Candle.close)).nextPrice,
          (predict (candles.map Candle.close)).projectionLine, 1 / 5⟩) ∧
    (∀ (sq : ℚ → ℚ) (candles : List Candle),
      30 ≤ candles.length → fitBeta sq (candles.map Candle.close) = none →
      improvedPredict sq candles =
        ⟨(predict (candles.map Candle.close)).nextPrice,
          (predict (candles.map Candle.close)).projectionLine, 1 / 10⟩) := by
  constructor
  · intro sq candles _ h29
    exact improvedPredict_short sq candles (by omega)
  · intro sq candles h30 hfit
    rw [improvedPredict_long sq candles (by omega), regressionPredict_none sq _ hfit]

/-! ## C3: the ridge solver satisfies the normal equations -/

/-- C3: for every design matrix with at least 8 rows (and 8 feature
columns) and every positive ridge parameter, whenever `linearRidge` does not
signal Singular the returned coefficient vector satisfies the ridge normal
equations `(XᵗX + λI)·beta = Xᵗy` exactly, the Gauss-Jordan inversion having
computed a true two-sided inverse of the normal matrix. -/
theorem C3_ridge_normal_equations {m : ℕ} (X : Matrix (Fin m) (Fin 8) ℚ)
    (y : Fin m → ℚ) (lam : ℚ) (beta : Fin 8 → ℚ)
    (hrows : 8 ≤ m) (hlam : 0 < lam)
    (hfit : linearRidge X y lam = some beta) :
    ridgeMatrix X lam *ᵥ beta = Xᵀ *ᵥ y ∧
      ∀ Inv, invertMatrix (ridgeMatrix X lam) = some Inv →
        ridgeMatrix X lam * Inv = 1 ∧ Inv * ridgeMatrix X lam = 1 :=
  ⟨linearRidge_sound hfit,
    fun _ hInv => ⟨(invertMatrix_sound hInv).2, (invertMatrix_sound hInv).1⟩⟩

set_option maxRecDepth 100000 in
set_option maxHeartbeats 2000000 in
/-- The identity design matrix with unit targets and unit ridge yields a
coefficient vector (the inversion is nonsingular). -/
theorem linearRidge_id_isSome :
    (linearRidge (1 : Mat 8) (fun _ => (1 : ℚ)) 1).isSome := by
  with_unfolding_all decide

/-- Witness for `C3_ridge_normal_equations` at the 8×8 identity design
matrix, unit targets and `λ = 1`. -/
theorem C3_ridge_normal_equations_witness :
    (8 ≤ 8 ∧ (0 : ℚ) < 1 ∧ (linearRidge (1 : Mat 8) (fun _ => (1 : ℚ)) 1).isSome) ∧
      ridgeMatrix (1 : Mat 8) 1 *ᵥ
          ((linearRidge (1 : Mat 8) (fun _ => (1 : ℚ)) 1).get linearRidge_id_isSome) =
        (1 : Mat 8)ᵀ *ᵥ (fun _ => (1 : ℚ)) :=
  ⟨⟨le_rfl, one_pos, linearRidge_id_isSome⟩,
    (C3_ridge_normal_equations (1 : Mat 8) (fun _ => (1 : ℚ)) 1 _ le_rfl one_pos
      (Option.some_get linearRidge_id_isSome).symm).1⟩

/-! ## C2: the confidence aggregation -/

/-- Every recorded backtest error is an absolute value, hence nonnegative. -/
theorem btErrors_nonneg (sq : ℚ → ℚ) (closes : List ℚ) :
    ∀ e ∈ btErrors sq closes, 0 ≤ e := by
  intro e he
  simp only [btErrors, List.mem_filterMap] at he
  obtain ⟨split, _, hsp⟩ := he
  unfold errorAtSplit at hsp
  split at hsp
  · exact absurd hsp (by simp)
  · rcases hm : linearRidge (btTrainX sq closes split) (btTrainY closes split) (1 / 100) with
      _ | betaT
    · rw [hm] at hsp
      exact absurd hsp (by simp)
    · rw [hm] at hsp
      simp only at hsp
      split at hsp
      · rw [Option.some_inj] at hsp
        rw [← hsp]
        exact abs_nonneg _
      · exact absurd hsp (by simp)

/-- The backtest confidence computed by the code (line 242) agrees with the
specification's `clamp(1 - MAPE/0.10, 0, 1)` formulation, because the mean
error is nonnegative. -/
theorem btConf_eq_spec (sq : ℚ → ℚ) (closes : List ℚ) :
    btConf sq closes = specBacktestConf sq closes := by
  unfold btConf specBacktestConf specMape clampQ
  by_cases h : btErrors sq closes = []
  · simp [h]
  · have hlen : (btErrors sq closes).length ≠ 0 := by
      simpa using h
    rw [if_neg hlen, if_neg h]
    have hx : 0 ≤ (btErrors sq closes).sum / ((btErrors sq closes).length : ℚ) / (1 / 10) := by
      have hs : 0 ≤ (btErrors sq closes).sum := List.sum_nonneg (btErrors_nonneg sq closes)
      positivity
    set x : ℚ := (btErrors sq closes).sum / ((btErrors sq closes).length : ℚ) / (1 / 10)
      with hxdef
    rcases le_total x 1 with hx1 | hx1
    · rw [min_eq_right hx1, min_eq_right (by linarith)]
    · rw [min_eq_left hx1, sub_self, max_self, min_eq_right (by linarith),
        max_eq_left (by linarith)]

/-- C2: on the regression path (≥ 30 candles, nonsingular fit) the returned
confidence equals `clamp(0.8·backtestConf + 0.2·clamp(R², 0, 1), 0, 1)`,
where `backtestConf = clamp(1 - MAPE/0.10, 0, 1)` over the mean recorded
backtest error (`0` when no split recorded an error); consequently the
confidence always lies in `[0, 1]`. -/
theorem C2_confidence_formula (sq : ℚ → ℚ) (candles : List Candle)
    (beta : Fin 8 → ℚ) (h30 : 30 ≤ candles.length)
    (hfit : fitBeta sq (candles.map Candle.close) = some beta) :
    (improvedPredict sq candles).confidence =
        clampQ (4 / 5 * specBacktestConf sq (candles.map Candle.close) +
          1 / 5 * clampQ (rsq sq (candles.map Candle.close) beta)) ∧
      0 ≤ (improvedPredict sq candles).confidence ∧
      (improvedPredict sq candles).confidence ≤ 1 := by
  rw [improvedPredict_long sq candles (by omega), regressionPredict_some sq _ beta hfit]
  refine ⟨?_, le_max_left _ _, max_le (by norm_num) (min_le_left _ _)⟩
  show max 0 (min 1 _) = _
  rw [btConf_eq_spec]
  rfl

set_option maxRecDepth 1000000 in
set_option maxHeartbeats 4000000 in
/-- The flat 30-candle history has a nonsingular full-sample fit. -/
theorem fitBeta_flat_isSome :
    (fitBeta sqZero (candlesFlat.map Candle.close)).isSome := by
  with_unfolding_all decide

/-- Witness for `C2_confidence_formula` on the flat 30-candle history. -/
theorem C2_confidence_formula_witness :
    (30 ≤ candlesFlat.length ∧
        (fitBeta sqZero (candlesFlat.map Candle.close)).isSome) ∧
      ((improvedPredict sqZero candlesFlat).confidence =
          clampQ (4 / 5 * specBacktestConf sqZero (candlesFlat.map Candle.close) +
            1 / 5 * clampQ (rsq sqZero (candlesFlat.map Candle.close)
              ((fitBeta sqZero (candlesFlat.map Candle.close)).get fitBeta_flat_isSome))) ∧
        0 ≤ (improvedPredict sqZero candlesFlat).confidence ∧
        (improvedPredict sqZero candlesFlat).confidence ≤ 1) :=
  ⟨⟨by decide, fitBeta_flat_isSome⟩,
    C2_confidence_formula sqZero candlesFlat _ (by decide)
      (Option.some_get fitBeta_flat_isSome).symm⟩

/-! ## C6: the autoregressive rollout -/

/-- The rollout emits exactly five prices. -/
theorem rollout_length (sq : ℚ → ℚ) (beta : Fin 8 → ℚ) (closes returns : List ℚ) :
    (rollout sq beta closes returns).length = 5 := by
  simp [rollout]

/-- The `k`-th emitted price is the one produced by the step function from
the `k`-th rolling state. -/
theorem rollout_getD (sq : ℚ → ℚ) (beta : Fin 8 → ℚ) (closes returns : List ℚ)
    (k : ℕ) (hk : k < 5) :
    (rollout sq beta closes returns).getD k 0 =
      (rolloutStep sq beta (rolloutState sq beta closes returns k)).2 := by
  simp [rollout, List.getD_eq_getElem?_getD, List.getElem?_map, List.getElem?_range, hk]

/-- C6: the rollout performs exactly 5 iterations with no early exit and
the projection has exactly 5 prices; each step's price is
`lastClose·(1 + dot(feature, beta)/100)`, the predicted price and return are
appended to the rolling close/return buffers before the next step, and the
returned `nextPrice` is the last element of `projectionLine`. -/
theorem C6_rollout_structure (sq : ℚ → ℚ) (candles : List Candle)
    (beta : Fin 8 → ℚ) (h30 : 30 ≤ candles.length)
    (hfit : fitBeta sq (candles.map Candle.close) = some beta) :
    (improvedPredict sq candles).projectionLine =
        rollout sq beta (candles.map Candle.close)
          (returnsOf (candles.map Candle.close)) ∧
      (improvedPredict sq candles).projectionLine.length = 5 ∧
      (improvedPredict sq candles).nextPrice =
        (improvedPredict sq candles).projectionLine.getD 4 0 ∧
      ∀ closes returns : List ℚ, ∀ k, k < 5 →
        (rollout sq beta closes returns).getD k 0 =
            (rolloutState sq beta closes returns k).1.getD
                ((rolloutState sq beta closes returns k).1.length - 1) 0 *
              (1 + (liveFeature sq (rolloutState sq beta closes returns k).1
                  (rolloutState sq beta closes returns k).2 ⬝ᵥ beta) / 100) ∧
          (rolloutState sq beta closes returns (k + 1)).1 =
              (rolloutState sq beta closes returns k).1 ++
                [(rollout sq beta closes returns).getD k 0] ∧
          (rolloutState sq beta closes returns (k + 1)).2 =
              (rolloutState sq beta closes returns k).2 ++
                [liveFeature sq (rolloutState sq beta closes returns k).1
                    (rolloutState sq beta closes returns k).2 ⬝ᵥ beta] := by
  rw [improvedPredict_long sq candles (by omega), regressionPredict_some sq _ beta hfit]
  refine ⟨rfl, ?_, ?_, ?_⟩
  · show (rollout sq beta (candles.map Candle.close)
        (returnsOf (candles.map Candle.close))).length = 5
    exact rollout_length sq beta _ _
  · show (rollout sq beta (candles.map Candle.close)
          (returnsOf (candles.map Candle.close))).getD
        ((rollout sq beta (candles.map Candle.close)
          (returnsOf (candles.map Candle.close))).length - 1) 0 =
      (rollout sq beta (candles.map Candle.close)
        (returnsOf (candles.map Candle.close))).getD 4 0
    rw [rollout_length]
  · intro closes returns k hk
    refine ⟨?_, ?_, ?_⟩
    · rw [rollout_getD sq beta closes returns k hk]
      rfl
    · rw [rollout_getD sq beta closes returns k hk]
      rfl
    · rfl

/-- Witness for `C6_rollout_structure` on the flat 30-candle history. -/
theorem C6_rollout_structure_witness :
    (30 ≤ candlesFlat.length ∧
        (fitBeta sqZero (candlesFlat.map Candle.close)).isSome) ∧
      ((improvedPredict sqZero candlesFlat).projectionLine =
          rollout sqZero ((fitBeta sqZero (candlesFlat.map Candle.close)).get fitBeta_flat_isSome)
            (candlesFlat.map Candle.close) (returnsOf (candlesFlat.map Candle.close)) ∧
        (improvedPredict sqZero candlesFlat).projectionLine.length = 5) :=
  ⟨⟨by decide, fitBeta_flat_isSome⟩,
    (C6_rollout_structure sqZero candlesFlat _ (by decide)
        (Option.some_get fitBeta_flat_isSome).symm).1,
    (C6_rollout_structure sqZero candlesFlat _ (by decide)
        (Option.some_get fitBeta_flat_isSome).symm).2.1⟩

/-! ## C8 and C9: the three volatility computations disagree -/

/-- A list of zeros sums to zero. -/
theorem sum_map_const_zero {α : Type} (l : List α) :
    (l.map (fun _ => (0 : ℚ))).sum = 0 := by
  induction l with
  | nil => rfl
  | cons a t ih => simp [ih]

/-- The population variance of an all-zero list is zero. -/
theorem variance_zeros {α : Type} (l : List α) :
    variance (l.map (fun _ => (0 : ℚ))) = 0 := by
  simp only [variance]
  rw [List.sum_eq_zero, zero_div]
  intro x hx
  simp only [List.mem_map] at hx
  obtain ⟨b, hb, rfl⟩ := hx
  obtain ⟨a, _, rfl⟩ := hb
  simp [sum_map_const_zero]

/-- The volatility slot of every backtest training row is `0`: the window
handed to `stddev` is mapped to the constant `0` (lines 205-208). -/
theorem btFeatureRow_vol_zero (sq : ℚ → ℚ) (closes : List ℚ) (i : ℕ) :
    btFeatureRow sq closes i 6 = 0 := by
  show orz (stddev sq (((closes.drop (i - 19)).take (i - (i - 19))).map (fun _ => 0))) = 0
  unfold orz stddev
  split
  · rfl
  · rw [variance_zeros, if_pos rfl]
    rfl

/-- C8: the backtest's volatility feature is computed differently from the
live forecast path: every backtest training row has volatility component
(index 6) equal to `0` — a placeholder — whereas the live rollout's
volatility component is the standard deviation of the trailing (at most 20)
percent returns, and is nonzero for some inputs (whenever the square root is
nonzero on positive arguments, as `Math.sqrt` is). -/
theorem C8_backtest_live_volatility_asymmetry (sq : ℚ → ℚ) :
    (∀ (closes : List ℚ) (i : ℕ), btFeatureRow sq closes i 6 = 0) ∧
      (∀ cs rs : List ℚ,
        liveFeature sq cs rs 6 = qq (stddev sq (rs.drop (rs.length - 20)))) ∧
      ((∀ x : ℚ, 0 < x → sq x ≠ 0) →
        liveFeature sq closesJump (returnsOf closesJump) 6 ≠ 0) := by
  refine ⟨fun closes i => btFeatureRow_vol_zero sq closes i, fun cs rs => rfl,
    fun hsq => ?_⟩
  show qq (stddev sq ((returnsOf closesJump).drop
    ((returnsOf closesJump).length - 20))) ≠ 0
  have hvar : 0 < variance ((returnsOf closesJump).drop
      ((returnsOf closesJump).length - 20)) := by
    with_unfolding_all decide
  have hne : (returnsOf closesJump).drop ((returnsOf closesJump).length - 20) ≠ [] := by
    with_unfolding_all decide
  unfold qq stddev
  rw [if_neg hne, if_neg hvar.ne']
  simpa using hsq _ hvar

/-- Witness for `C8_backtest_live_volatility_asymmetry`, instantiating the
abstract square root with the identity (nonzero on positive arguments). -/
theorem C8_backtest_live_volatility_asymmetry_witness :
    liveFeature sqId closesJump (returnsOf closesJump) 6 ≠ 0 :=
  (C8_backtest_live_volatility_asymmetry sqId).2.2 (fun _ hx => ne_of_gt hx)

/-- C9: the single backtest evaluation feature built at a split sets its
volatility component to the standard deviation of the *raw close prices*
`closes[max(0, split-19) .. split-1]` (line 227) — prices, not returns —
which differs from the training rows' constant `0` and from the live
rollout's returns-based volatility (at the concrete alternating history the
two variance arguments differ). -/
theorem C9_split_feature_volatility (sq : ℚ → ℚ) :
    (∀ (closes : List ℚ) (split : ℕ),
      btSplitFeature sq closes split 6 =
        orz (stddev sq ((closes.drop (split - 19)).take (split - (split - 19))))) ∧
      ((∀ x : ℚ, 0 < x → sq x ≠ 0) →
        btSplitFeature sq closesAlt 30 6 ≠ btFeatureRow sq closesAlt 30 6) ∧
      variance ((closesAlt.drop (30 - 19)).take (30 - (30 - 19))) ≠
        variance ((returnsOf closesAlt).drop ((returnsOf closesAlt).length - 20)) := by
  refine ⟨fun closes split => rfl, fun hsq => ?_, by with_unfolding_all decide⟩
  rw [btFeatureRow_vol_zero]
  show orz (stddev sq ((closesAlt.drop (30 - 19)).take (30 - (30 - 19)))) ≠ 0
  have hvar : 0 < variance ((closesAlt.drop (30 - 19)).take (30 - (30 - 19))) := by
    with_unfolding_all decide
  have hne : (closesAlt.drop (30 - 19)).take (30 - (30 - 19)) ≠ [] := by
    with_unfolding_all decide
  unfold orz stddev
  rw [if_neg hne, if_neg hvar.ne']
  simpa using hsq _ hvar

/-- Witness for `C9_split_feature_volatility`, instantiating the abstract
square root with the identity. -/
theorem C9_split_feature_volatility_witness :
    btSplitFeature sqId closesAlt 30 6 ≠ btFeatureRow sqId closesAlt 30 6 :=
  (C9_split_feature_volatility sqId).2.1 (fun _ hx => ne_of_gt hx)

/-! ## C5: the training set has no look-ahead leakage -/

theorem returnsOf_length (closes : List ℚ) :
    (returnsOf closes).length = closes.length - 1 := by
  simp [returnsOf]

theorem returnsOf_getElem? (closes : List ℚ) (j : ℕ) :
    (returnsOf closes)[j]? =
      if j < closes.length - 1
      then some (pctChange (closes.getD j 0) (closes.getD (j + 1) 0))
      else none := by
  by_cases hj : j < closes.length - 1
  · simp [returnsOf, List.getElem?_map, List.getElem?_range hj, hj]
  · rw [if_neg hj]
    apply List.getElem?_eq_none
    simp [returnsOf_length]
    omega

theorem returnsOf_getD (closes : List ℚ) (j : ℕ) (hj : j < closes.length - 1) :
    (returnsOf closes).getD j 0 =
      pctChange (closes.getD j 0) (closes.getD (j + 1) 0) := by
  simp [List.getD_eq_getElem?_getD, returnsOf_getElem?, hj]

/-- Entries below the cut of two lists with equal `take n` agree. -/
theorem getD_eq_of_take_eq {l l' : List ℚ} {n j : ℕ}
    (h : l.take n = l'.take n) (hj : j < n) :
    l.getD j 0 = l'.getD j 0 := by
  have h1 : l[j]? = l'[j]? := by
    have h2 := congrArg (fun t => t[j]?) h
    simpa [List.getElem?_take, hj] using h2
  simp [List.getD_eq_getElem?_getD, h1]

/-- Two lists with equal `take n` are either equal or both have at least
`n` entries. -/
theorem take_eq_cases {l l' : List ℚ} {n : ℕ} (h : l.take n = l'.take n) :
    l = l' ∨ (n ≤ l.length ∧ n ≤ l'.length) := by
  have hlen := congrArg List.length h
  simp only [List.length_take] at hlen
  by_cases h1 : n ≤ l.length
  · by_cases h2 : n ≤ l'.length
    · exact Or.inr ⟨h1, h2⟩
    · exfalso
      omega
  · by_cases h2 : n ≤ l'.length
    · exfalso
      omega
    · left
      rw [List.take_of_length_le (by omega), List.take_of_length_le (by omega)] at h
      exact h

/-- The volatility window of a training row is determined by the first
`i + 1` closes. -/
theorem returns_window_eq {closes closes' : List ℚ} {i : ℕ} (h20 : 20 ≤ i)
    (h : closes.take (i + 1) = closes'.take (i + 1))
    (hlen : i + 1 ≤ closes.length) (hlen' : i + 1 ≤ closes'.length) :
    ((returnsOf closes).drop (i - 19)).take (i - (i - 19)) =
      ((returnsOf closes').drop (i - 19)).take (i - (i - 19)) := by
  apply List.ext_getElem?
  intro j
  by_cases hj : j < i - (i - 19)
  · rw [List.getElem?_take, List.getElem?_take, if_pos hj, if_pos hj,
      List.getElem?_drop, List.getElem?_drop, returnsOf_getElem?,
      returnsOf_getElem?]
    have hr : i - 19 + j < closes.length - 1 := by omega
    have hr' : i - 19 + j < closes'.length - 1 := by omega
    rw [if_pos hr, if_pos hr',
      getD_eq_of_take_eq h (by omega : i - 19 + j < i + 1),
      getD_eq_of_take_eq h (by omega : i - 19 + j + 1 < i + 1)]
  · rw [List.getElem?_take, List.getElem?_take, if_neg hj, if_neg hj]

/-- A training feature row is a function only of the closes up to and
including its cutoff. -/
theorem featureRow_window_only (sq : ℚ → ℚ) (closes closes' : List ℚ) (i : ℕ)
    (h20 : 20 ≤ i) (h : closes.take (i + 1) = closes'.take (i + 1)) :
    featureRow sq closes i = featureRow sq closes' i := by
  rcases take_eq_cases h with rfl | ⟨hlen, hlen'⟩
  · rfl
  · simp only [featureRow]
    rw [h, returns_window_eq h20 h hlen hlen',
      returnsOf_getD closes (i - 1) (by omega),
      returnsOf_getD closes' (i - 1) (by omega),
      getD_eq_of_take_eq h (by omega : i - 1 < i + 1)]
    have hi1 : i - 1 + 1 = i := by omega
    rw [hi1, getD_eq_of_take_eq h (by omega : i < i + 1)]

/-- C5: in the full-sample training set, row `j`'s feature vector is a
function only of the closes up to and including its cutoff `i = 20 + j`
(no look-ahead leakage), and its target is exactly the percent return from
`closes[i]` to `closes[i+1]` — the return realised the day after the cutoff
— with rows and targets index-aligned 1:1 over the same `Fin` domain. -/
theorem C5_training_set_no_lookahead (sq : ℚ → ℚ) :
    (∀ (closes closes' : List ℚ) (i : ℕ), 20 ≤ i →
        closes.take (i + 1) = closes'.take (i + 1) →
        featureRow sq closes i = featureRow sq closes' i) ∧
      ∀ (closes : List ℚ) (j : Fin (closes.length - 21)),
        trainX sq closes j = featureRow sq closes (20 + j.val) ∧
          trainY closes j =
            pctChange (closes.getD (20 + j.val) 0) (closes.getD (20 + j.val + 1) 0) := by
  refine ⟨featureRow_window_only sq, fun closes j => ⟨rfl, ?_⟩⟩
  have hj := j.isLt
  exact returnsOf_getD closes _ (by omega)

/-- Witness for `C5_training_set_no_lookahead`: two histories agreeing up to
the cutoff produce the same feature row there, although they differ later. -/
theorem C5_training_set_no_lookahead_witness :
    (20 ≤ 20 ∧ closesJump.take 21 = (closesJump ++ [5]).take 21) ∧
      featureRow sqZero closesJump 20 = featureRow sqZero (closesJump ++ [5]) 20 :=
  ⟨⟨le_rfl, by with_unfolding_all decide⟩,
    (C5_training_set_no_lookahead sqZero).1 closesJump (closesJump ++ [5]) 20 le_rfl
      (by with_unfolding_all decide)⟩

/-! ## C7: features stay finite on positive histories -/

/-- With strictly positive closes no percent-change division can blow up:
the tracked returns are exactly the finite returns. -/
theorem returnsOfF_pos {closes : List ℚ} (hpos : ∀ c ∈ closes, 0 < c) :
    returnsOfF closes = (returnsOf closes).map some := by
  unfold returnsOfF returnsOf
  rw [List.map_map]
  apply List.map_congr_left
  intro j hj
  rw [List.mem_range] at hj
  have hjr : j < closes.length := by omega
  have h0 : closes[j]?.getD 0 ≠ 0 := by
    rw [List.getElem?_eq_getElem hjr]
    exact ne_of_gt (hpos _ (List.getElem_mem hjr))
  simp [Function.comp, List.getD_eq_getElem?_getD, h0]

/-- Sequencing a list of finite numbers succeeds. -/
theorem seqList_map_some (l : List ℚ) : seqList (l.map some) = some l := by
  induction l with
  | nil => rfl
  | cons a t ih => simp [seqList, ih]

/-- A finite optional value equals `some` of its `?? 0` coalescing. -/
theorem opt_eq_some_qq {o : Option ℚ} (h : o.isSome) : o = some (qq o) := by
  cases o with
  | none => exact absurd h (by simp)
  | some v => rfl

theorem sma_isSome (arr : List ℚ) (p : ℕ) (h : p ≤ arr.length) :
    (sma arr p).isSome := by
  simp [sma, Nat.not_lt.mpr h]

theorem ema_isSome (arr : List ℚ) (p : ℕ) (h : arr ≠ []) :
    (ema arr p).isSome := by
  cases arr with
  | nil => exact absurd rfl h
  | cons a t => simp [ema]

theorem stddev_isSome (sq : ℚ → ℚ) (arr : List ℚ) (h : arr ≠ []) :
    (stddev sq arr).isSome := by
  simp [stddev, h]

/-- `?? 0` on an in-range read of the finite returns. -/
theorem getD_map_some (l : List ℚ) (j : ℕ) :
    (l.map some).getD j (some 0) = some (l.getD j 0) := by
  simp only [List.getD_eq_getElem?_getD, List.getElem?_map]
  cases l[j]? <;> simp

/-- C7: for every history of at least 30 strictly positive closes, every
feature vector the engine builds at a valid cutoff has exactly 8 components
and every component is finite — the non-finiteness-tracking recomputation
returns `some` of the exact value in every slot — and likewise for every
rollout feature built from nonempty rolling buffers of exact rationals. -/
theorem C7_features_finite (sq : ℚ → ℚ) (closes : List ℚ)
    (hlen : 30 ≤ closes.length) (hpos : ∀ c ∈ closes, 0 < c)
    (i : ℕ) (hi1 : 20 ≤ i) (hi2 : i ≤ closes.length - 2) :
    (∀ k : Fin 8, featureRowOpt sq closes i k = some (featureRow sq closes i k)) ∧
      (List.ofFn (featureRow sq closes i)).length = 8 ∧
      (∀ cs rs : List ℚ, 20 ≤ cs.length → rs ≠ [] → ∀ k : Fin 8,
        liveFeatureOpt sq cs rs k = some (liveFeature sq cs rs k)) := by
  have htake : (closes.take (i + 1)).length = i + 1 := by
    rw [List.length_take]
    omega
  refine ⟨?_, by simp, ?_⟩
  · intro k
    fin_cases k
    · rfl
    · show (returnsOfF closes).getD (i - 1) (some 0) = some ((returnsOf closes).getD (i - 1) 0)
      rw [returnsOfF_pos hpos, getD_map_some]
    · show sma (closes.take (i + 1)) 5 = some (qq (sma (closes.take (i + 1)) 5))
      exact opt_eq_some_qq (sma_isSome _ 5 (by omega))
    · show sma (closes.take (i + 1)) 20 = some (qq (sma (closes.take (i + 1)) 20))
      exact opt_eq_some_qq (sma_isSome _ 20 (by omega))
    · show ema (closes.take (i + 1)) 12 = some (qq (ema (closes.take (i + 1)) 12))
      exact opt_eq_some_qq (ema_isSome _ 12 (by
        intro hnil
        rw [hnil] at htake
        simp at htake))
    · show ema (closes.take (i + 1)) 26 = some (qq (ema (closes.take (i + 1)) 26))
      exact opt_eq_some_qq (ema_isSome _ 26 (by
        intro hnil
        rw [hnil] at htake
        simp at htake))
    · show stddevF sq (((returnsOfF closes).drop (i - 19)).take (i - (i - 19))) =
        some (qq (stddev sq (((returnsOf closes).drop (i - 19)).take (i - (i - 19)))))
      rw [returnsOfF_pos hpos, ← List.map_drop, ← List.map_take]
      unfold stddevF
      rw [seqList_map_some, Option.some_bind]
      refine opt_eq_some_qq (stddev_isSome sq _ ?_)
      have hl : (((returnsOf closes).drop (i - 19)).take (i - (i - 19))).length =
          min (i - (i - 19)) ((returnsOf closes).length - (i - 19)) := by
        rw [List.length_take, List.length_drop]
      intro hnil
      rw [hnil] at hl
      rw [returnsOf_length] at hl
      simp at hl
      omega
    · rfl
  · intro cs rs hcs hrs k
    have hcs0 : cs ≠ [] := by
      intro hnil
      rw [hnil] at hcs
      simp at hcs
    fin_cases k
    · rfl
    · rfl
    · exact opt_eq_some_qq (sma_isSome _ 5 (by omega))
    · exact opt_eq_some_qq (sma_isSome _ 20 (by omega))
    · exact opt_eq_some_qq (ema_isSome _ 12 hcs0)
    · exact opt_eq_some_qq (ema_isSome _ 26 hcs0)
    · refine opt_eq_some_qq (stddev_isSome sq _ ?_)
      intro hnil
      have hl := congrArg List.length hnil
      rw [List.length_drop] at hl
      have : rs.length ≠ 0 := fun h0 => hrs (List.length_eq_zero.mp h0)
      simp at hl
      omega
    · rfl

/-- Witness for `C7_features_finite` at the first cutoff of a concrete
positive 30-close history. -/
theorem C7_features_finite_witness :
    (30 ≤ closesJump.length ∧ (∀ c ∈ closesJump, 0 < c) ∧ 20 ≤ 20 ∧
        20 ≤ closesJump.length - 2) ∧
      ∀ k : Fin 8, featureRowOpt sqZero closesJump 20 k =
        some (featureRow sqZero closesJump 20 k) :=
  ⟨⟨by with_unfolding_all decide, by with_unfolding_all decide, le_rfl,
      by with_unfolding_all decide⟩,
    (C7_features_finite sqZero closesJump (by with_unfolding_all decide)
        (by with_unfolding_all decide) 20 le_rfl (by with_unfolding_all decide)).1⟩

/-- Witness for `C4_fallback_routes` on a 5-candle history. -/
theorem C4_fallback_routes_witness :
    (2 ≤ candlesShort.length ∧ candlesShort.length ≤ 29) ∧
      improvedPredict sqZero candlesShort =
        ⟨(predict (candlesShort.map Candle.close)).nextPrice,
          (predict (candlesShort.map Candle.close)).projectionLine, 1 / 5⟩ :=
  ⟨⟨by decide, by decide⟩,
    C4_fallback_routes.1 sqZero candlesShort (by decide) (by decide)⟩

end StockPredictor
